import Mathlib

/-!
Verification of the `dnscache` package: an in-process DNS resolution cache
(`dnscache.go`).  The cache maps string keys to entries carrying the resolved
records (`rrs`) and a `used` flag; lookups are deduplicated through a
singleflight group; a refresh sweep evicts unused entries and re-resolves
used ones.

The Go functions are shallowly embedded here.  The cache map
`map[string]*cacheEntry` becomes an association list with unique keys, the
`select` in `update` becomes an explicit `UpdateEvent` describing which branch
the scheduler delivered, and the singleflight group (an external dependency of
the repository) is modelled from the spec.
-/

set_option autoImplicit false

namespace Dnscache

/-- The `cacheEntry` struct: resolved records plus the used-since-last-refresh
flag. -/
structure CacheEntry where
  rrs : List String
  used : Bool
  deriving Repr, DecidableEq

/-- The resolver cache `map[string]*cacheEntry`, embedded as an association
list (realisable states have pairwise distinct keys). -/
abbrev Cache := List (String × CacheEntry)

/-- Keys of a cache, in order. -/
def keys (c : Cache) : List String := c.map Prod.fst

/-- Map access `r.cache[key]` (first matching pair). -/
def findE : Cache → String → Option CacheEntry
  | [], _ => none
  | p :: rest, k => if p.1 = k then some p.2 else findE rest k

/-- In-place mutation of the entry stored under `k` (a no-op when `k` is
absent), as done through the shared `*cacheEntry` pointer. -/
def setE (c : Cache) (k : String) (e : CacheEntry) : Cache :=
  c.map (fun p => if p.1 = k then (k, e) else p)

/-- Map deletion `delete(r.cache, key)`. -/
def eraseKey (c : Cache) (k : String) : Cache :=
  c.filter (fun p => p.1 ≠ k)

/-- Errors surfaced by a lookup: a context error (`context.Canceled` or
`context.DeadlineExceeded`) or an error from the underlying resolver. -/
inductive CtxReason where
  | canceled
  | deadlineExceeded
  deriving Repr, DecidableEq

/-- Error values, as compared by the `err == context.DeadlineExceeded` test in
`update`. -/
inductive Err where
  | ctx (reason : CtxReason)
  | provider (code : Nat)
  deriving Repr, DecidableEq

/-- The result type `(rrs []string, err error)` of the lookup paths: either
records or an error (the code never returns both). -/
abbrev LookupResult := Except Err (List String)

instance : DecidableEq LookupResult := fun a b =>
  match a, b with
  | .ok v, .ok w =>
    if h : v = w then .isTrue (by rw [h]) else .isFalse (by simp [h])
  | .ok _, .error _ => .isFalse (by simp)
  | .error _, .ok _ => .isFalse (by simp)
  | .error e, .error f =>
    if h : e = f then .isTrue (by rw [h]) else .isFalse (by simp [h])

/-- Embeds `Resolver.load`: read the entry under `key`; on a hit, flip its `used`
flag to `true` when it was `false` (the write-locked branch) and return the
records.  Returns the records (if found) and the resulting cache. -/
def load (c : Cache) (key : String) : Option (List String) × Cache :=
  match findE c key with
  | none => (none, c)
  | some e =>
    if e.used then (some e.rrs, c)
    else (some e.rrs, setE c key ⟨e.rrs, true⟩)

/-- Embeds `Resolver.storeLocked`: upsert — update an existing entry in place, or
create a new one. -/
def storeLocked (c : Cache) (key : String) (rrs : List String) (used : Bool) : Cache :=
  if (findE c key).isSome then
    setE c key ⟨rrs, used⟩
  else
    c ++ [(key, ⟨rrs, used⟩)]

/-- Which branch of the `select` in `Resolver.update` fires: the caller's
context is done (with the reason reported by `ctx.Err()`), or the
singleflight channel delivers a result `res` with its `Shared` flag. -/
inductive UpdateEvent where
  | ctxDone (reason : CtxReason)
  | result (shared : Bool) (res : LookupResult)
  deriving Repr, DecidableEq

/-- Outcome of `Resolver.update`: the returned `(rrs, err)` pair, the cache
afterwards, and whether `lookupGroup.Forget(key)` was called. -/
structure UpdateOut where
  res : LookupResult
  cache : Cache
  forgot : Bool
  deriving Repr, DecidableEq

/-- Embeds `Resolver.update`: start/join the deduplicated lookup and race the result
channel against the caller's context.  On context-done, return `ctx.Err()` and
call `Forget` exactly when the reason is `DeadlineExceeded`.  On a shared
result, re-check the cache first; on an error result, fall back to the cache;
on success, commit the records with the given `used` flag.  The Go code calls
`r.load(key)` separately in the shared branch and in the error branch, but a
missing shared re-check leaves the cache unchanged, so the error branch's
`load` observes the same cache and the two calls coincide here. -/
def update (c : Cache) (key : String) (used : Bool) (ev : UpdateEvent) : UpdateOut :=
  match ev with
  | .ctxDone reason =>
    { res := .error (.ctx reason), cache := c,
      forgot := reason = .deadlineExceeded }
  | .result shared res =>
    if shared ∧ ((load c key).1).isSome then
      { res := .ok (((load c key).1).getD []), cache := (load c key).2, forgot := false }
    else
      match res with
      | .error e =>
        if ((load c key).1).isSome then
          { res := .ok (((load c key).1).getD []), cache := (load c key).2, forgot := false }
        else
          { res := .error e, cache := c, forgot := false }
      | .ok v =>
        { res := .ok v, cache := storeLocked c key v used, forgot := false }

/-- Embeds `Resolver.lookup`: consult the cache; on a miss, run the update path with
`used = true`. -/
def lookup (c : Cache) (key : String) (ev : UpdateEvent) : UpdateOut :=
  if ((load c key).1).isSome then
    { res := .ok (((load c key).1).getD []), cache := (load c key).2, forgot := false }
  else
    update c key true ev

/-- The forward-lookup key `"h" + host` built by `Resolver.LookupHost`. -/
def forwardKey (host : String) : String := "h" ++ host

/-- The reverse-lookup key `"r" + addr` built by `Resolver.LookupAddr`. -/
def reverseKey (addr : String) : String := "r" ++ addr

/-- Embeds `Resolver.Remove`: delete the forward-lookup entry for `host`. -/
def remove (c : Cache) (host : String) : Cache :=
  eraseKey c (forwardKey host)

/-- One `r.update(context.Background(), key, false)` call of the final loop of
`refreshRecords`.  The background context is never done, so the update always
observes the result event for its key, sequentially, hence not shared;
`resolve` gives the outcome of the underlying lookup for each key. -/
def refreshStep (resolve : String → LookupResult) (acc : Cache) (key : String) : Cache :=
  (update acc key false (.result false (resolve key))).cache

/-- The used-key snapshot (`update` list) taken by `refreshRecords` under the
read lock. -/
def usedKeys (c : Cache) : List String :=
  (c.filter (fun p => p.2.used)).map Prod.fst

/-- The unused-key snapshot (`del` list) taken by `refreshRecords` under the
read lock. -/
def unusedKeys (c : Cache) : List String :=
  (c.filter (fun p => !p.2.used)).map Prod.fst

/-- Embeds `Resolver.refreshRecords`: snapshot the keys partitioned by the `used`
flag, delete every unused key, then re-run the update path for every used key
with `used = false`. -/
def refreshRecords (resolve : String → LookupResult) (c : Cache) : Cache :=
  (usedKeys c).foldl (refreshStep resolve) ((unusedKeys c).foldl eraseKey c)

/-- The underlying resolver interface `DNSResolver` (pure: the embedding
records only the outcome each call would produce). -/
structure DNSResolver where
  lookupHost : String → LookupResult
  lookupAddr : String → LookupResult

/-- Embeds `Resolver.lookupFunc`: dispatch on the kind discriminant stored as the
first character of the key; `none` embeds the two `panic` branches (empty key,
unknown discriminant). -/
def lookupFunc (r : DNSResolver) (key : String) : Option LookupResult :=
  match key.data with
  | [] => none
  | c :: rest =>
    if c = 'h' then some (r.lookupHost ⟨rest⟩)
    else if c = 'r' then some (r.lookupAddr ⟨rest⟩)
    else none

/-- Modelled from the spec: the per-key registration state of the
deduplication coordinator (`singleflight.Group` from `golang.org/x/sync`, a
dependency whose source is not part of this repository): whether a call for
the key is in flight, and how many underlying invocations have been started. -/
structure GroupState where
  inflight : Bool
  invocations : Nat
  deriving Repr, DecidableEq

/-- Modelled from the spec: one caller's `DoChan(key, fn)` registration for a
fixed key.  If no call is in flight the caller becomes the initiator and the
work function is invoked (once); otherwise the caller joins the in-flight
call without starting a new invocation. -/
def register (g : GroupState) : GroupState :=
  if g.inflight then g else { inflight := true, invocations := g.invocations + 1 }

/-- Modelled from the spec: `n` `DoChan` registrations for the same key whose
in-flight windows overlap (all issued before the underlying call completes). -/
def registerAll : Nat → GroupState → GroupState
  | 0, g => g
  | n + 1, g => registerAll n (register g)

/-- Modelled from the spec: the single underlying invocation completes with
outcome `res` and the coordinator delivers the identical `(wasShared, res)`
pair to each of the `n` waiting callers' channels, `wasShared` reporting that
the result was shared among more than one caller. -/
def deliver (n : Nat) (res : LookupResult) : List (Bool × LookupResult) :=
  List.replicate n (decide (1 < n), res)

/-- The callers consume the delivered results one after the other, each
running the result branch of `update` with `used = true` (the lookup path),
threading the cache and recording each caller's returned result. -/
def processAll (key : String) : List (Bool × LookupResult) → Cache → List LookupResult × Cache
  | [], c => ([], c)
  | (sh, res) :: rest, c =>
    let o := update c key true (.result sh res)
    let pr := processAll key rest o.cache
    (o.res :: pr.1, pr.2)

/-- A reference to a Go callback function (`httptrace.ClientTrace` hook),
compared by identity; `none` is a nil function pointer. -/
abbrev HookRef := Option Nat

/-- The `httptrace.ClientTrace` struct as far as `prepareCtx` is concerned:
the `DNSStart` and `DNSDone` hooks, plus `otherHooks` standing for all the
remaining callback fields of the struct. -/
structure ClientTrace where
  dnsStart : HookRef
  dnsDone : HookRef
  otherHooks : HookRef
  deriving Repr, DecidableEq

/-- A `context.Context` as far as `prepareCtx` is concerned: an optional
deadline, an optionally attached client trace, and `otherValues` standing for
any other values/cancellation baggage the context carries. -/
structure Context where
  deadline : Option Int
  trace : Option ClientTrace
  otherValues : List Nat
  deriving Repr, DecidableEq

/-- Embeds `context.Background()`: no deadline, no trace, no values. -/
def background : Context := { deadline := none, trace := none, otherValues := [] }

/-- Embeds `Resolver.prepareCtx`: start from a fresh background context, apply
`context.WithTimeout` when the configured `Timeout` is positive, and copy the
`DNSStart`/`DNSDone` hook references (only) from the original context's
client trace, if one is attached. -/
def prepareCtx (timeout : Int) (orig : Context) : Context :=
  let ctx := background
  let ctx := if 0 < timeout then { ctx with deadline := some timeout } else ctx
  match orig.trace with
  | some t => { ctx with trace := some { dnsStart := t.dnsStart, dnsDone := t.dnsDone, otherHooks := none } }
  | none => ctx

/-! ### Basic lemmas about the store operations -/

theorem findE_eq_none_iff (c : Cache) (k : String) :
    findE c k = none ↔ k ∉ keys c := by
  induction c with
  | nil => simp [findE, keys]
  | cons p rest ih =>
    by_cases h : p.1 = k <;> simp [findE, keys, h, ih, Ne.symm]

theorem findE_mem (c : Cache) (k : String) (e : CacheEntry)
    (h : findE c k = some e) : (k, e) ∈ c := by
  induction c with
  | nil => simp [findE] at h
  | cons p rest ih =>
    obtain ⟨a, b⟩ := p
    by_cases hp : a = k
    · subst hp
      simp [findE] at h
      subst h
      exact List.mem_cons_self _ _
    · simp [findE, hp] at h
      exact List.mem_cons_of_mem _ (ih h)

theorem findE_of_mem_nodup (c : Cache) (k : String) (e : CacheEntry)
    (hnd : (keys c).Nodup) (h : (k, e) ∈ c) : findE c k = some e := by
  induction c with
  | nil => simp at h
  | cons p rest ih =>
    simp only [keys, List.map_cons, List.nodup_cons] at hnd
    rcases List.mem_cons.mp h with h | h
    · cases h.symm
      simp [findE]
    · have hk : k ∈ rest.map Prod.fst := List.mem_map_of_mem Prod.fst h
      have hp : p.1 ≠ k := fun hpk => hnd.1 (by rw [hpk]; exact hk)
      simp only [findE, hp, if_false]
      exact ih hnd.2 h

theorem findE_setE_self (c : Cache) (k : String) (e e₀ : CacheEntry)
    (h : findE c k = some e₀) : findE (setE c k e) k = some e := by
  induction c with
  | nil => simp [findE] at h
  | cons p rest ih =>
    by_cases hp : p.1 = k
    · simp [setE, findE, hp]
    · simp [findE, hp] at h
      simpa [setE, findE, hp] using ih h

theorem findE_setE_ne (c : Cache) (k k' : String) (e : CacheEntry)
    (h : k' ≠ k) : findE (setE c k e) k' = findE c k' := by
  induction c with
  | nil => simp [setE, findE]
  | cons p rest ih =>
    by_cases hp : p.1 = k
    · simpa [setE, findE, hp, Ne.symm h, h] using ih
    · by_cases hp' : p.1 = k'
      · simp [setE, findE, hp, hp', h]
      · simpa [setE, findE, hp, hp', h] using ih

theorem keys_setE (c : Cache) (k : String) (e : CacheEntry) :
    keys (setE c k e) = keys c := by
  induction c with
  | nil => rfl
  | cons p rest ih =>
    by_cases hp : p.1 = k
    · simpa [setE, keys, hp] using ih
    · simpa [setE, keys, hp] using ih

theorem findE_eraseKey_self (c : Cache) (k : String) :
    findE (eraseKey c k) k = none := by
  induction c with
  | nil => rfl
  | cons p rest ih =>
    by_cases hp : p.1 = k
    · simpa [eraseKey, List.filter_cons, hp] using ih
    · simpa [eraseKey, List.filter_cons, findE, hp] using ih

theorem findE_eraseKey_ne (c : Cache) (k k' : String) (h : k' ≠ k) :
    findE (eraseKey c k) k' = findE c k' := by
  induction c with
  | nil => rfl
  | cons p rest ih =>
    by_cases hp : p.1 = k
    · have hp' : p.1 ≠ k' := fun hc => h (hc.symm.trans hp)
      simpa [eraseKey, List.filter_cons, findE, hp, hp', h, Ne.symm h] using ih
    · by_cases hp' : p.1 = k'
      · simp [eraseKey, List.filter_cons, findE, hp, hp', h]
      · simpa [eraseKey, List.filter_cons, findE, hp, hp', h] using ih

theorem eraseKey_of_absent (c : Cache) (k : String) (h : findE c k = none) :
    eraseKey c k = c := by
  have hmem : ∀ p ∈ c, p.1 ≠ k := by
    intro p hp hpk
    exact (findE_eq_none_iff c k).mp h (by rw [← hpk]; exact List.mem_map_of_mem Prod.fst hp)
  simp only [eraseKey]
  apply List.filter_eq_self.mpr
  intro p hp
  simpa using hmem p hp

theorem nodup_keys_eraseKey (c : Cache) (k : String)
    (h : (keys c).Nodup) : (keys (eraseKey c k)).Nodup :=
  h.sublist ((List.filter_sublist c).map Prod.fst)

theorem findE_append_left (c d : Cache) (k : String) (e : CacheEntry)
    (h : findE c k = some e) : findE (c ++ d) k = some e := by
  induction c with
  | nil => simp [findE] at h
  | cons p rest ih =>
    by_cases hp : p.1 = k
    · simp [findE, hp] at h ⊢
      exact h
    · simp [findE, hp] at h ⊢
      exact ih h

theorem findE_append_right (c d : Cache) (k : String)
    (h : findE c k = none) : findE (c ++ d) k = findE d k := by
  induction c with
  | nil => rfl
  | cons p rest ih =>
    by_cases hp : p.1 = k
    · simp [findE, hp] at h
    · simp [findE, hp] at h ⊢
      exact ih h

/-! ### Lemmas about `storeLocked` -/

theorem findE_storeLocked_self (c : Cache) (k : String) (v : List String) (u : Bool) :
    findE (storeLocked c k v u) k = some ⟨v, u⟩ := by
  unfold storeLocked
  cases hck : findE c k with
  | none => simp [hck, findE_append_right c _ k hck, findE]
  | some e => simp [hck, findE_setE_self c k _ e hck]

theorem findE_storeLocked_ne (c : Cache) (k k' : String) (v : List String) (u : Bool)
    (h : k' ≠ k) : findE (storeLocked c k v u) k' = findE c k' := by
  unfold storeLocked
  cases hck : findE c k with
  | none =>
    simp only [hck, Option.isSome_none, Bool.false_eq_true, if_false]
    cases hck' : findE c k' with
    | none => simp [findE_append_right c _ k' hck', findE, Ne.symm h]
    | some e => simp [findE_append_left c _ k' e hck']
  | some e => simp [hck, findE_setE_ne c k k' _ h]

theorem nodup_keys_storeLocked (c : Cache) (k : String) (v : List String) (u : Bool)
    (h : (keys c).Nodup) : (keys (storeLocked c k v u)).Nodup := by
  unfold storeLocked
  cases hck : findE c k with
  | none =>
    have hk : k ∉ keys c := (findE_eq_none_iff c k).mp hck
    simp only [hck, Option.isSome_none, Bool.false_eq_true, if_false]
    simp only [keys, List.map_append, List.map_cons, List.map_nil]
    refine List.Nodup.append h (List.nodup_singleton k) ?_
    intro a ha hak
    rw [List.mem_singleton.mp hak] at ha
    exact hk ha
  | some e => simpa [hck, keys_setE] using h

/-! ### Lemmas about `load` -/

theorem load_absent (c : Cache) (k : String) (h : findE c k = none) :
    load c k = (none, c) := by
  simp [load, h]

theorem load_found_fst (c : Cache) (k : String) (e : CacheEntry)
    (h : findE c k = some e) : (load c k).1 = some e.rrs := by
  cases hu : e.used <;> simp [load, h, hu]

theorem findE_load_self (c : Cache) (k : String) (e : CacheEntry)
    (h : findE c k = some e) : findE (load c k).2 k = some ⟨e.rrs, true⟩ := by
  obtain ⟨rrs, used⟩ := e
  cases used with
  | false => simpa [load, h] using findE_setE_self c k ⟨rrs, true⟩ _ h
  | true => simp [load, h]

theorem findE_load_ne (c : Cache) (k k' : String) (h : k' ≠ k) :
    findE (load c k).2 k' = findE c k' := by
  cases hck : findE c k with
  | none => simp [load, hck]
  | some e =>
    cases hu : e.used with
    | false => simp [load, hck, hu, findE_setE_ne c k k' _ h]
    | true => simp [load, hck, hu]

theorem load_of_used (c : Cache) (k : String) (e : CacheEntry)
    (h : findE c k = some e) (hu : e.used = true) : (load c k).2 = c := by
  simp [load, h, hu]

theorem keys_load (c : Cache) (k : String) : keys (load c k).2 = keys c := by
  cases hck : findE c k with
  | none => simp [load, hck]
  | some e => cases hu : e.used <;> simp [load, hck, hu, keys_setE]

theorem nodup_keys_load (c : Cache) (k : String)
    (h : (keys c).Nodup) : (keys (load c k).2).Nodup := by
  rw [keys_load]
  exact h

/-! ### Characterisation of the branches of `update` -/

theorem update_ctxDone_eq (c : Cache) (k : String) (u : Bool) (reason : CtxReason) :
    update c k u (.ctxDone reason) =
      { res := .error (.ctx reason), cache := c,
        forgot := reason = .deadlineExceeded } := rfl

theorem update_shared_hit (c : Cache) (k : String) (u : Bool) (res : LookupResult)
    (e : CacheEntry) (h : findE c k = some e) :
    update c k u (.result true res) =
      { res := .ok e.rrs, cache := (load c k).2, forgot := false } := by
  have h1 : (load c k).1 = some e.rrs := load_found_fst c k e h
  simp [update, h1]

theorem update_error_hit (c : Cache) (k : String) (u : Bool) (shared : Bool) (e0 : Err)
    (e : CacheEntry) (h : findE c k = some e) :
    update c k u (.result shared (.error e0)) =
      { res := .ok e.rrs, cache := (load c k).2, forgot := false } := by
  have h1 : (load c k).1 = some e.rrs := load_found_fst c k e h
  cases shared <;> simp [update, h1]

theorem update_error_miss (c : Cache) (k : String) (u : Bool) (shared : Bool) (e0 : Err)
    (h : findE c k = none) :
    update c k u (.result shared (.error e0)) =
      { res := .error e0, cache := c, forgot := false } := by
  have h1 : load c k = (none, c) := load_absent c k h
  cases shared <;> simp [update, h1]

theorem update_ok_fresh (c : Cache) (k : String) (u : Bool) (v : List String)
    (shared : Bool) (h : shared = false ∨ findE c k = none) :
    update c k u (.result shared (.ok v)) =
      { res := .ok v, cache := storeLocked c k v u, forgot := false } := by
  rcases h with h | h
  · subst h
    simp [update]
  · have h1 : load c k = (none, c) := load_absent c k h
    cases shared <;> simp [update, h1]

theorem findE_update_ne (c : Cache) (k k' : String) (u : Bool) (ev : UpdateEvent)
    (h : k' ≠ k) : findE (update c k u ev).cache k' = findE c k' := by
  cases ev with
  | ctxDone reason => rfl
  | result shared res =>
    simp only [update]
    split
    · exact findE_load_ne c k k' h
    · cases res with
      | error e =>
        simp only []
        split
        · exact findE_load_ne c k k' h
        · rfl
      | ok v => exact findE_storeLocked_ne c k k' v u h

theorem nodup_keys_update (c : Cache) (k : String) (u : Bool) (ev : UpdateEvent)
    (h : (keys c).Nodup) : (keys (update c k u ev).cache).Nodup := by
  cases ev with
  | ctxDone reason => exact h
  | result shared res =>
    simp only [update]
    split
    · exact nodup_keys_load c k h
    · cases res with
      | error e =>
        simp only []
        split
        · exact nodup_keys_load c k h
        · exact h
      | ok v => exact nodup_keys_storeLocked c k v u h

/-! ### Lemmas about the refresh sweep -/

theorem findE_foldl_eraseKey_not_mem (l : List String) (k : String) (h : k ∉ l) :
    ∀ c : Cache, findE (l.foldl eraseKey c) k = findE c k := by
  induction l with
  | nil => intro c; rfl
  | cons a rest ih =>
    intro c
    have h1 : k ≠ a := fun he => h (List.mem_cons.mpr (Or.inl he))
    have h2 : k ∉ rest := fun hm => h (List.mem_cons.mpr (Or.inr hm))
    rw [List.foldl_cons, ih h2, findE_eraseKey_ne c a k h1]

theorem findE_foldl_eraseKey_mem (l : List String) (k : String) (h : k ∈ l) :
    ∀ c : Cache, findE (l.foldl eraseKey c) k = none := by
  induction l with
  | nil => cases h
  | cons a rest ih =>
    intro c
    by_cases hk : k ∈ rest
    · rw [List.foldl_cons]
      exact ih hk _
    · have hka : k = a := by
        rcases List.mem_cons.mp h with h' | h'
        · exact h'
        · exact absurd h' hk
      subst hka
      rw [List.foldl_cons, findE_foldl_eraseKey_not_mem rest k hk, findE_eraseKey_self]

theorem nodup_keys_foldl_eraseKey (l : List String) :
    ∀ c : Cache, (keys c).Nodup → (keys (l.foldl eraseKey c)).Nodup := by
  induction l with
  | nil => exact fun c h => h
  | cons a rest ih =>
    intro c h
    rw [List.foldl_cons]
    exact ih _ (nodup_keys_eraseKey c a h)

theorem findE_refreshStep_ne (resolve : String → LookupResult) (acc : Cache)
    (key k : String) (h : k ≠ key) :
    findE (refreshStep resolve acc key) k = findE acc k :=
  findE_update_ne acc key k false _ h

theorem findE_foldl_refreshStep_not_mem (resolve : String → LookupResult)
    (l : List String) (k : String) (h : k ∉ l) :
    ∀ c : Cache, findE (l.foldl (refreshStep resolve) c) k = findE c k := by
  induction l with
  | nil => intro c; rfl
  | cons a rest ih =>
    intro c
    have h1 : k ≠ a := fun he => h (List.mem_cons.mpr (Or.inl he))
    have h2 : k ∉ rest := fun hm => h (List.mem_cons.mpr (Or.inr hm))
    rw [List.foldl_cons, ih h2, findE_refreshStep_ne resolve c a k h1]

theorem nodup_keys_foldl_refreshStep (resolve : String → LookupResult) (l : List String) :
    ∀ c : Cache, (keys c).Nodup → (keys (l.foldl (refreshStep resolve) c)).Nodup := by
  induction l with
  | nil => exact fun c h => h
  | cons a rest ih =>
    intro c h
    rw [List.foldl_cons]
    exact ih _ (nodup_keys_update c a false _ h)

theorem findE_foldl_refreshStep_ok (resolve : String → LookupResult)
    (l : List String) (k : String) (v : List String) (hres : resolve k = .ok v) :
    ∀ c : Cache, l.Nodup → k ∈ l →
      findE (l.foldl (refreshStep resolve) c) k = some ⟨v, false⟩ := by
  induction l with
  | nil => intro c _ hk; cases hk
  | cons a rest ih =>
    intro c hnd hk
    rw [List.foldl_cons]
    by_cases hkr : k ∈ rest
    · exact ih _ (List.nodup_cons.mp hnd).2 hkr
    · have hka : k = a := by
        rcases List.mem_cons.mp hk with h' | h'
        · exact h'
        · exact absurd h' hkr
      subst hka
      rw [findE_foldl_refreshStep_not_mem resolve rest k hkr]
      simp only [refreshStep, hres]
      rw [update_ok_fresh c k false v false (Or.inl rfl)]
      exact findE_storeLocked_self c k v false

theorem findE_foldl_refreshStep_stale (resolve : String → LookupResult)
    (l : List String) (k : String) (v : List String) (e0 : Err)
    (hres : resolve k = .error e0) :
    ∀ c : Cache, findE c k = some ⟨v, true⟩ →
      findE (l.foldl (refreshStep resolve) c) k = some ⟨v, true⟩ := by
  induction l with
  | nil => exact fun c hc => hc
  | cons a rest ih =>
    intro c hc
    rw [List.foldl_cons]
    apply ih
    by_cases hak : k = a
    · subst hak
      simp only [refreshStep, hres]
      rw [update_error_hit c k false false e0 ⟨v, true⟩ hc]
      rw [load_of_used c k ⟨v, true⟩ hc rfl]
      exact hc
    · rw [findE_refreshStep_ne resolve c a k hak]
      exact hc

theorem mem_usedKeys (c : Cache) (k : String) :
    k ∈ usedKeys c ↔ ∃ e, (k, e) ∈ c ∧ e.used = true := by
  unfold usedKeys
  rw [List.mem_map]
  constructor
  · rintro ⟨p, hp, rfl⟩
    have h := List.mem_filter.mp hp
    exact ⟨p.2, h.1, h.2⟩
  · rintro ⟨e, he, hu⟩
    exact ⟨(k, e), List.mem_filter.mpr ⟨he, hu⟩, rfl⟩

theorem mem_unusedKeys (c : Cache) (k : String) :
    k ∈ unusedKeys c ↔ ∃ e, (k, e) ∈ c ∧ e.used = false := by
  unfold unusedKeys
  rw [List.mem_map]
  constructor
  · rintro ⟨p, hp, rfl⟩
    have h := List.mem_filter.mp hp
    exact ⟨p.2, h.1, by simpa using h.2⟩
  · rintro ⟨e, he, hu⟩
    exact ⟨(k, e), List.mem_filter.mpr ⟨he, by simpa using hu⟩, rfl⟩

theorem nodup_usedKeys (c : Cache) (h : (keys c).Nodup) : (usedKeys c).Nodup :=
  h.sublist ((List.filter_sublist c).map Prod.fst)

theorem not_mem_usedKeys_of_unused (c : Cache) (k : String) (v : List String)
    (hnd : (keys c).Nodup) (h : findE c k = some ⟨v, false⟩) : k ∉ usedKeys c := by
  intro hmem
  rcases (mem_usedKeys c k).mp hmem with ⟨e, he, hu⟩
  have := findE_of_mem_nodup c k e hnd he
  rw [h] at this
  cases this
  simp at hu

theorem not_mem_unusedKeys_of_used (c : Cache) (k : String) (v : List String)
    (hnd : (keys c).Nodup) (h : findE c k = some ⟨v, true⟩) : k ∉ unusedKeys c := by
  intro hmem
  rcases (mem_unusedKeys c k).mp hmem with ⟨e, he, hu⟩
  have := findE_of_mem_nodup c k e hnd he
  rw [h] at this
  cases this
  simp at hu

theorem mem_usedKeys_of_used (c : Cache) (k : String) (v : List String)
    (h : findE c k = some ⟨v, true⟩) : k ∈ usedKeys c :=
  (mem_usedKeys c k).mpr ⟨⟨v, true⟩, findE_mem c k _ h, rfl⟩

theorem nodup_keys_refreshRecords (resolve : String → LookupResult) (c : Cache)
    (h : (keys c).Nodup) : (keys (refreshRecords resolve c)).Nodup :=
  nodup_keys_foldl_refreshStep resolve (usedKeys c) _
    (nodup_keys_foldl_eraseKey (unusedKeys c) c h)

theorem refreshRecords_unused_deleted (resolve : String → LookupResult) (c : Cache)
    (k : String) (v : List String) (hnd : (keys c).Nodup)
    (h : findE c k = some ⟨v, false⟩) :
    findE (refreshRecords resolve c) k = none := by
  unfold refreshRecords
  rw [findE_foldl_refreshStep_not_mem resolve _ k (not_mem_usedKeys_of_unused c k v hnd h)]
  exact findE_foldl_eraseKey_mem _ k
    ((mem_unusedKeys c k).mpr ⟨⟨v, false⟩, findE_mem c k _ h, rfl⟩) c

theorem refreshRecords_used_ok (resolve : String → LookupResult) (c : Cache)
    (k : String) (v w : List String) (hnd : (keys c).Nodup)
    (h : findE c k = some ⟨v, true⟩) (hres : resolve k = .ok w) :
    findE (refreshRecords resolve c) k = some ⟨w, false⟩ := by
  unfold refreshRecords
  exact findE_foldl_refreshStep_ok resolve _ k w hres _
    (nodup_usedKeys c hnd) (mem_usedKeys_of_used c k v h)

theorem refreshRecords_stale (resolve : String → LookupResult) (c : Cache)
    (k : String) (v : List String) (e0 : Err) (hnd : (keys c).Nodup)
    (h : findE c k = some ⟨v, true⟩) (hres : resolve k = .error e0) :
    findE (refreshRecords resolve c) k = some ⟨v, true⟩ := by
  unfold refreshRecords
  apply findE_foldl_refreshStep_stale resolve _ k v e0 hres
  rw [findE_foldl_eraseKey_not_mem _ k (not_mem_unusedKeys_of_used c k v hnd h)]
  exact h

/-! ### Key encodings -/

theorem forwardKey_ne_reverseKey (s t : String) : forwardKey s ≠ reverseKey t := by
  intro h
  have hd := congrArg String.data h
  simp only [forwardKey, reverseKey, String.data_append] at hd
  simp at hd

/-! ### Lemmas about the deduplication model -/

theorem registerAll_of_inflight (n : Nat) :
    ∀ g : GroupState, g.inflight = true → registerAll n g = g := by
  induction n with
  | zero => intro g _; rfl
  | succ m ih =>
    intro g hg
    show registerAll m (register g) = g
    rw [register, if_pos hg]
    exact ih g hg

theorem registerAll_one (n : Nat) (h : 1 ≤ n) :
    registerAll n ⟨false, 0⟩ = ⟨true, 1⟩ := by
  cases n with
  | zero => cases h
  | succ m =>
    show registerAll m (register ⟨false, 0⟩) = ⟨true, 1⟩
    rw [register]
    simp only [if_false]
    exact registerAll_of_inflight m ⟨true, 1⟩ rfl

/-- Invariant threaded through the sequential processing of a delivered
result: the key is either still absent (error outcomes never store) or holds
exactly the delivered records, marked used. -/
def keyInv (key : String) (res : LookupResult) (c : Cache) : Prop :=
  findE c key = none ∨ ∃ v, res = .ok v ∧ findE c key = some ⟨v, true⟩

theorem update_step_outcome (c : Cache) (key : String) (sh : Bool) (res : LookupResult)
    (hI : keyInv key res c) :
    (update c key true (.result sh res)).res = res ∧
    keyInv key res (update c key true (.result sh res)).cache := by
  rcases hI with hI | ⟨v, hv, hI⟩
  · cases res with
    | ok w =>
      rw [update_ok_fresh c key true w sh (Or.inr hI)]
      exact ⟨rfl, Or.inr ⟨w, rfl, findE_storeLocked_self c key w true⟩⟩
    | error e =>
      rw [update_error_miss c key true sh e hI]
      exact ⟨rfl, Or.inl hI⟩
  · subst hv
    cases sh with
    | true =>
      rw [update_shared_hit c key true _ ⟨v, true⟩ hI]
      rw [load_of_used c key ⟨v, true⟩ hI rfl]
      exact ⟨rfl, Or.inr ⟨v, rfl, hI⟩⟩
    | false =>
      rw [update_ok_fresh c key true v false (Or.inl rfl)]
      exact ⟨rfl, Or.inr ⟨v, rfl, findE_storeLocked_self c key v true⟩⟩

theorem processAll_outcomes (key : String) (res : LookupResult) :
    ∀ (l : List (Bool × LookupResult)) (c : Cache), (∀ p ∈ l, p.2 = res) →
      keyInv key res c →
      ∀ o ∈ (processAll key l c).1, o = res := by
  intro l
  induction l with
  | nil =>
    intro c _ _ o ho
    cases ho
  | cons p rest ih =>
    intro c hall hI o ho
    obtain ⟨sh, r⟩ := p
    have hr : r = res := hall (sh, r) (List.mem_cons_self _ _)
    subst hr
    have hstep := update_step_outcome c key sh r hI
    rcases List.mem_cons.mp ho with ho | ho
    · rw [ho]
      exact hstep.1
    · exact ih _ (fun q hq => hall q (List.mem_cons_of_mem _ hq)) hstep.2 o ho

/-! ### Claim theorems -/

/-- C1: when the update path's underlying resolution delivers an error, a key
with a cache entry at that moment is answered from the cache with no error,
while a key with no entry gets no records and the provider's error. -/
theorem c1_error_fallback (c : Cache) (key : String) (u shared : Bool) (e0 : Err) :
    (∀ ent, findE c key = some ent →
      (update c key u (.result shared (.error e0))).res = .ok ent.rrs) ∧
    (findE c key = none →
      update c key u (.result shared (.error e0)) =
        { res := .error e0, cache := c, forgot := false }) := by
  constructor
  · intro ent h
    rw [update_error_hit c key u shared e0 ent h]
  · intro h
    exact update_error_miss c key u shared e0 h

/-- Witness for C1 at a concrete cache: a stale entry is served on error, and
an empty cache propagates the error. -/
theorem c1_error_fallback_witness :
    (update [("hx", (⟨["1.1.1.1"], true⟩ : CacheEntry))] "hx" true
      (.result false (.error (.provider 0)))).res = .ok ["1.1.1.1"] ∧
    update ([] : Cache) "hx" true (.result false (.error (.provider 0))) =
      { res := .error (.provider 0), cache := [], forgot := false } :=
  ⟨(c1_error_fallback [("hx", ⟨["1.1.1.1"], true⟩)] "hx" true false (.provider 0)).1
      ⟨["1.1.1.1"], true⟩ (by decide),
   (c1_error_fallback [] "hx" true false (.provider 0)).2 rfl⟩

/-- C2: refresh deletes every unused entry; a used entry is re-resolved with
`used = false`, so a second refresh with no intervening lookup deletes it. -/
theorem c2_refresh_semantics (resolve resolve₂ : String → LookupResult) (c : Cache)
    (k : String) (hnd : (keys c).Nodup) :
    (∀ v, findE c k = some ⟨v, false⟩ → findE (refreshRecords resolve c) k = none) ∧
    (∀ v w, findE c k = some ⟨v, true⟩ → resolve k = .ok w →
      findE (refreshRecords resolve c) k = some ⟨w, false⟩ ∧
      findE (refreshRecords resolve₂ (refreshRecords resolve c)) k = none) := by
  refine ⟨fun v h => refreshRecords_unused_deleted resolve c k v hnd h,
    fun v w h hres => ?_⟩
  have h1 := refreshRecords_used_ok resolve c k v w hnd h hres
  exact ⟨h1, refreshRecords_unused_deleted resolve₂ _ k w
    (nodup_keys_refreshRecords resolve c hnd) h1⟩

/-- Witness for C2 at a concrete cache: one refresh re-resolves the used entry
and resets its flag, a second refresh evicts it. -/
theorem c2_refresh_semantics_witness :
    findE (refreshRecords (fun _ => .ok ["10.0.0.2"])
      [("hx", ⟨["10.0.0.1"], true⟩)]) "hx" = some ⟨["10.0.0.2"], false⟩ ∧
    findE (refreshRecords (fun _ => .ok ["10.0.0.2"])
      (refreshRecords (fun _ => .ok ["10.0.0.2"]) [("hx", ⟨["10.0.0.1"], true⟩)])) "hx" = none :=
  (c2_refresh_semantics (fun _ => .ok ["10.0.0.2"]) (fun _ => .ok ["10.0.0.2"])
    [("hx", ⟨["10.0.0.1"], true⟩)] "hx" (by decide)).2
    ["10.0.0.1"] ["10.0.0.2"] (by decide) rfl

/-- C3: a successful lookup leaves, under the key, an entry marked used whose
records are exactly the returned value; a cache hit returns the stored
records and flips only the `used` flag (a no-op when already true, touching
no other key), and a miss observed by the reader mutates nothing. -/
theorem c3_lookup_marks_used (c : Cache) (key : String) :
    (∀ ev v, (lookup c key ev).res = .ok v →
      findE (lookup c key ev).cache key = some ⟨v, true⟩) ∧
    (∀ e, findE c key = some e →
      (load c key).1 = some e.rrs ∧
      findE (load c key).2 key = some ⟨e.rrs, true⟩ ∧
      (∀ k', k' ≠ key → findE (load c key).2 k' = findE c k') ∧
      (e.used = true → (load c key).2 = c)) ∧
    (findE c key = none → load c key = (none, c)) := by
  refine ⟨?_, ?_, load_absent c key⟩
  · intro ev v hres
    unfold lookup at hres ⊢
    by_cases hs : ((load c key).1).isSome
    · rw [if_pos hs] at hres ⊢
      cases hck : findE c key with
      | none =>
        rw [load_absent c key hck] at hs
        simp at hs
      | some e =>
        have h1 : (load c key).1 = some e.rrs := load_found_fst c key e hck
        have hres' : Except.ok (((load c key).1).getD []) = (Except.ok v : LookupResult) := hres
        rw [h1] at hres'
        have hv : e.rrs = v := by simpa using hres'
        subst hv
        exact findE_load_self c key e hck
    · rw [if_neg hs] at hres ⊢
      have hck : findE c key = none := by
        cases hck : findE c key with
        | none => rfl
        | some e =>
          rw [load_found_fst c key e hck] at hs
          simp at hs
      cases ev with
      | ctxDone reason =>
        rw [update_ctxDone_eq] at hres
        exact absurd hres (by simp)
      | result shared res =>
        cases res with
        | error e0 =>
          rw [update_error_miss c key true shared e0 hck] at hres
          exact absurd hres (by simp)
        | ok w =>
          rw [update_ok_fresh c key true w shared (Or.inr hck)] at hres ⊢
          have hv : w = v := by simpa using hres
          subst hv
          exact findE_storeLocked_self c key w true
  · intro e he
    exact ⟨load_found_fst c key e he, findE_load_self c key e he,
      fun k' hk' => findE_load_ne c key k' hk', fun hu => load_of_used c key e he hu⟩

/-- Witness for C3 at a concrete cache: a fresh successful lookup stores the
returned records marked used, and a hit on an unused entry flips the flag. -/
theorem c3_lookup_marks_used_witness :
    findE (lookup ([] : Cache) "hx" (.result false (.ok ["1.1.1.1"]))).cache "hx" =
      some ⟨["1.1.1.1"], true⟩ ∧
    (load [("hx", (⟨["1.1.1.1"], false⟩ : CacheEntry))] "hx").1 = some ["1.1.1.1"] :=
  ⟨(c3_lookup_marks_used [] "hx").1 (.result false (.ok ["1.1.1.1"])) ["1.1.1.1"] rfl,
   ((c3_lookup_marks_used [("hx", ⟨["1.1.1.1"], false⟩)] "hx").2.1
      ⟨["1.1.1.1"], false⟩ (by decide)).1⟩

/-- C4: when the caller's context is done, the update path returns the
context's error and no records, leaves the cache untouched, and calls
`Forget` exactly when the reason is deadline-exceeded. -/
theorem c4_ctx_done (c : Cache) (key : String) (u : Bool) (reason : CtxReason) :
    (update c key u (.ctxDone reason)).res = .error (.ctx reason) ∧
    (update c key u (.ctxDone reason)).cache = c ∧
    ((update c key u (.ctxDone reason)).forgot = true ↔ reason = .deadlineExceeded) := by
  refine ⟨rfl, rfl, ?_⟩
  cases reason <;> simp [update]

/-- C5: forward and reverse key encodings never coincide (their Boolean
equality test is always `false`), so storing under one kind's key for a
subject never overwrites the other kind's entry for the same subject; in
particular the two keys for subject `"1.2.3.4"` differ. -/
theorem c5_key_kind_isolation :
    (∀ s t : String, (forwardKey s == reverseKey t) = false) ∧
    (∀ (c : Cache) (s t : String) (v : List String) (u : Bool),
      findE (storeLocked c (forwardKey s) v u) (reverseKey t) = findE c (reverseKey t) ∧
      findE (storeLocked c (reverseKey t) v u) (forwardKey s) = findE c (forwardKey s)) ∧
    (forwardKey "1.2.3.4" == reverseKey "1.2.3.4") = false := by
  refine ⟨fun s t => beq_eq_false_iff_ne.mpr (forwardKey_ne_reverseKey s t),
    fun c s t v u => ⟨?_, ?_⟩,
    beq_eq_false_iff_ne.mpr (forwardKey_ne_reverseKey _ _)⟩
  · exact findE_storeLocked_ne c _ _ v u (Ne.symm (forwardKey_ne_reverseKey s t))
  · exact findE_storeLocked_ne c _ _ v u (forwardKey_ne_reverseKey s t)

/-- C6: with the deduplication coordinator modelled from the spec, `n ≥ 1`
overlapping registrations start exactly one underlying invocation; processing
the delivered shared outcome from an initially-empty key gives every caller
the identical result; and a caller seeing a shared outcome while the cache
already holds the key returns the stored records with no store write (only
`load`'s flag flip). -/
theorem c6_dedup (key : String) (res : LookupResult) (c : Cache) :
    (∀ n, 1 ≤ n → (registerAll n ⟨false, 0⟩).invocations = 1) ∧
    (findE c key = none → ∀ n, ∀ o ∈ (processAll key (deliver n res) c).1, o = res) ∧
    (∀ (ent : CacheEntry) (u : Bool), findE c key = some ent →
      update c key u (.result true res) =
        { res := .ok ent.rrs, cache := (load c key).2, forgot := false }) := by
  refine ⟨fun n hn => by rw [registerAll_one n hn], fun hmiss n => ?_,
    fun ent u h => update_shared_hit c key u res ent h⟩
  apply processAll_outcomes key res (deliver n res) c
  · intro p hp
    rw [List.eq_of_mem_replicate hp]
  · exact Or.inl hmiss

/-- Witness for C6 at concrete inputs: two overlapping callers cause one
invocation, and a sampled caller outcome equals the shared result. -/
theorem c6_dedup_witness :
    (registerAll 2 ⟨false, 0⟩).invocations = 1 ∧
    ((processAll "hx" (deliver 2 (.ok ["1.1.1.1"])) []).1.getD 0 (.error (.provider 0))) =
      .ok ["1.1.1.1"] :=
  ⟨(c6_dedup "hx" (.ok ["1.1.1.1"]) []).1 2 (by decide),
   (c6_dedup "hx" (.ok ["1.1.1.1"]) []).2.1 rfl 2 _ (by decide)⟩

/-- C7: the context handed to the provider is derived from a fresh background
context — it carries a deadline exactly when the configured timeout is
positive (and that deadline is the timeout), it carries none of the caller
context's other baggage, and it carries the caller's `DNSStart`/`DNSDone`
hook references (and only those) whenever the caller's context has a client
trace attached. -/
theorem c7_prepare_ctx (timeout : Int) (orig : Context) :
    ((prepareCtx timeout orig).deadline).isSome = decide (0 < timeout) ∧
    (prepareCtx timeout orig).deadline = (if 0 < timeout then some timeout else none) ∧
    (prepareCtx timeout orig).trace =
      Option.map (fun t => (⟨t.dnsStart, t.dnsDone, none⟩ : ClientTrace)) orig.trace ∧
    (prepareCtx timeout orig).otherValues = [] := by
  cases htr : orig.trace with
  | none => by_cases hto : 0 < timeout <;> simp [prepareCtx, background, htr, hto]
  | some t => by_cases hto : 0 < timeout <;> simp [prepareCtx, background, htr, hto]

/-- C8: building the work function panics exactly for the empty key or a
first character other than the discriminants `'h'`/`'r'`; keys built by the
public entry points (any host or address subject, even empty) never panic and
dispatch to the corresponding resolver call on the subject. -/
theorem c8_lookup_func_panics (r : DNSResolver) (key : String) :
    ((lookupFunc r key).isNone = true ↔
      key.data = [] ∨ ∃ ch rest, key.data = ch :: rest ∧
        (ch == 'h') = false ∧ (ch == 'r') = false) ∧
    (∀ host, lookupFunc r (forwardKey host) = some (r.lookupHost host)) ∧
    (∀ addr, lookupFunc r (reverseKey addr) = some (r.lookupAddr addr)) := by
  refine ⟨?_, ?_, ?_⟩
  · cases hk : key.data with
    | nil => simp [lookupFunc, hk]
    | cons ch rest =>
      by_cases hh : ch = 'h'
      · subst hh
        simp [lookupFunc, hk]
      · by_cases hr : ch = 'r'
        · subst hr
          simp [lookupFunc, hk]
        · have hnone : (lookupFunc r key).isNone = true := by
            simp [lookupFunc, hk, hh, hr]
          rw [hnone]
          simp only [true_iff]
          exact Or.inr ⟨ch, rest, rfl, beq_eq_false_iff_ne.mpr hh, beq_eq_false_iff_ne.mpr hr⟩
  · intro host
    have hd : (forwardKey host).data = 'h' :: host.data := by
      show ("h" ++ host).data = 'h' :: host.data
      simp [String.data_append]
    have hmk : (⟨host.data⟩ : String) = host := String.ext rfl
    simp [lookupFunc, hd, hmk]
  · intro addr
    have hd : (reverseKey addr).data = 'r' :: addr.data := by
      show ("r" ++ addr).data = 'r' :: addr.data
      simp [String.data_append]
    have hmk : (⟨addr.data⟩ : String) = addr := String.ext rfl
    simp [lookupFunc, hd, hmk]

/-- C9: `Remove` deletes exactly the forward-lookup entry for the host — it
never fails, is a no-op when that entry is absent, and leaves every other
entry (including a reverse-lookup entry for the same subject) unchanged. -/
theorem c9_remove_frame (c : Cache) (host : String) :
    findE (remove c host) (forwardKey host) = none ∧
    (∀ k, k ≠ forwardKey host → findE (remove c host) k = findE c k) ∧
    findE (remove c host) (reverseKey host) = findE c (reverseKey host) ∧
    (findE c (forwardKey host) = none → remove c host = c) := by
  refine ⟨findE_eraseKey_self c _, fun k hk => findE_eraseKey_ne c _ k hk, ?_,
    eraseKey_of_absent c _⟩
  exact findE_eraseKey_ne c _ _ (Ne.symm (forwardKey_ne_reverseKey host host))

/-- Witness for C9 at a concrete cache: removal leaves an unrelated key
intact and is the identity when the forward entry is absent. -/
theorem c9_remove_frame_witness :
    findE (remove [(forwardKey "x.example", (⟨["10.0.0.1"], true⟩ : CacheEntry))] "x.example")
      "rx.example" = findE [(forwardKey "x.example", ⟨["10.0.0.1"], true⟩)] "rx.example" ∧
    remove ([] : Cache) "x.example" = [] :=
  ⟨(c9_remove_frame [(forwardKey "x.example", ⟨["10.0.0.1"], true⟩)] "x.example").2.1
      "rx.example" (by decide),
   (c9_remove_frame [] "x.example").2.2.2 rfl⟩

/-- C10: when a refresh-triggered re-resolution fails for a key that still
has a cache entry, the entry survives the refresh with its records intact and
its `used` flag set to true, and therefore also survives the next refresh
sweep with no intervening lookup. -/
theorem c10_stale_kept_used (resolve resolve₂ : String → LookupResult) (c : Cache)
    (k : String) (v : List String) (e0 : Err) (hnd : (keys c).Nodup)
    (h : findE c k = some ⟨v, true⟩) (hres : resolve k = .error e0) :
    findE (refreshRecords resolve c) k = some ⟨v, true⟩ ∧
    (findE (refreshRecords resolve₂ (refreshRecords resolve c)) k).isSome = true := by
  have h1 := refreshRecords_stale resolve c k v e0 hnd h hres
  refine ⟨h1, ?_⟩
  have hnd1 := nodup_keys_refreshRecords resolve c hnd
  cases hres2 : resolve₂ k with
  | ok w =>
    rw [refreshRecords_used_ok resolve₂ _ k v w hnd1 h1 hres2]
    rfl
  | error e1 =>
    rw [refreshRecords_stale resolve₂ _ k v e1 hnd1 h1 hres2]
    rfl

/-- Witness for C10 at a concrete cache: a failing refresh keeps the old
records, marked used, through two refresh sweeps. -/
theorem c10_stale_kept_used_witness :
    findE (refreshRecords (fun _ => .error (.provider 7))
      [("hx", ⟨["10.0.0.1"], true⟩)]) "hx" = some ⟨["10.0.0.1"], true⟩ ∧
    (findE (refreshRecords (fun _ => .error (.provider 7))
      (refreshRecords (fun _ => .error (.provider 7))
        [("hx", ⟨["10.0.0.1"], true⟩)])) "hx").isSome = true :=
  c10_stale_kept_used (fun _ => .error (.provider 7)) (fun _ => .error (.provider 7))
    [("hx", ⟨["10.0.0.1"], true⟩)] "hx" ["10.0.0.1"] (.provider 7)
    (by decide) (by decide) rfl

/-- Witness for C4 at a concrete cache: deadline-exceeded forgets the key,
plain cancellation leaves the cache untouched. -/
theorem c4_ctx_done_witness :
    (update ([] : Cache) "hx" true (.ctxDone .deadlineExceeded)).forgot = true ∧
    (update ([] : Cache) "hx" true (.ctxDone .canceled)).cache = [] :=
  ⟨(c4_ctx_done [] "hx" true .deadlineExceeded).2.2.mpr rfl,
   (c4_ctx_done [] "hx" true .canceled).2.1⟩

/-- Witness for C5 at the concrete subject of the claim. -/
theorem c5_key_kind_isolation_witness :
    (forwardKey "1.2.3.4" == reverseKey "1.2.3.4") = false :=
  c5_key_kind_isolation.2.2

/-- Witness for C7 at a concrete caller context carrying a deadline, a trace
and extra values. -/
theorem c7_prepare_ctx_witness :
    ((prepareCtx 5 ⟨some 3, some ⟨some 1, some 2, some 9⟩, [4]⟩).deadline).isSome =
      decide ((0 : Int) < 5) ∧
    (prepareCtx 5 ⟨some 3, some ⟨some 1, some 2, some 9⟩, [4]⟩).trace =
      Option.map (fun t => (⟨t.dnsStart, t.dnsDone, none⟩ : ClientTrace))
        (some (⟨some 1, some 2, some 9⟩ : ClientTrace)) :=
  ⟨(c7_prepare_ctx 5 ⟨some 3, some ⟨some 1, some 2, some 9⟩, [4]⟩).1,
   (c7_prepare_ctx 5 ⟨some 3, some ⟨some 1, some 2, some 9⟩, [4]⟩).2.2.1⟩

/-- Witness for C8 at a concrete resolver and subject: the public forward key
never panics and dispatches to the host lookup. -/
theorem c8_lookup_func_panics_witness :
    lookupFunc ⟨fun h => .ok [h], fun a => .ok [a]⟩ (forwardKey "x") = some (.ok ["x"]) :=
  (c8_lookup_func_panics ⟨fun h => .ok [h], fun a => .ok [a]⟩ (forwardKey "x")).2.1 "x"

end Dnscache
